import Mathlib

/-!
Verification development for the `crawl` package (crawl.go).

The orchestrator `Crawl` is embedded as a small-step transition system over
the state it owns (work queue, visited map, in-flight fetches, accumulated
results).  The URL library (net/url) and the fetch collaborator are external
to the repository and are modelled abstractly: a `UrlLib` supplies `parse`
(url.Parse), `resolveRef` (base.Parse) and `render` (URL.String) over a
`GoUrl` record carrying the fields the orchestrator touches, and the fetch
collaborator is a deterministic function from a URL string to a link list
and an optional error, matching the `func(string) ([]string, error)` field
of `Crawler`.

Concurrency is modelled by the standard interleaving abstraction: a
`dispatch` step is the select case `sendWork <- next` (it can fire only
when one of the `numFetchers` workers is free, i.e. when fewer than
`numFetchers` dispatched URLs are awaiting their result), a `receive` step
is the select case `page := <-fetched` (any in-flight URL may complete and
be received), and a `skip` step is the dequeue-time duplicate check
`if visited[next] { work = work[1:]; continue }`, which bypasses the select
entirely.
-/

set_option linter.unusedVariables false

/-- The fields of net/url URL that `Crawl` reads or writes. -/
structure GoUrl where
  scheme : String
  host : String
  path : String
  rawQuery : String
  fragment : String
deriving DecidableEq, Repr

/-- Abstract interface of the net/url primitives used by `Crawl`:
`parse s` is `url.Parse(s)`, `resolveRef b l` is `b.Parse(l)` and
`render u` is `u.String()`. -/
structure UrlLib where
  parse : String → Option GoUrl
  resolveRef : GoUrl → String → Option GoUrl
  render : GoUrl → String

/-- The normalization performed in the link-processing loop:
`link.Fragment = ""` and `link.RawQuery = ""`. -/
def clearFragQuery (u : GoUrl) : GoUrl :=
  { u with fragment := "", rawQuery := "" }

/-- Result is the results from a single page/URL (crawl.go). -/
structure Result where
  url : String
  links : List String
  err : Option String
deriving DecidableEq, Repr

/-- Crawler configuration record (crawl.go); only `numFetchers` matters to
the orchestrator model.  Go `int` is modelled as `Int`. -/
structure Crawler where
  numFetchers : Int
deriving DecidableEq, Repr

/-- NewCrawler creates a Crawler with the given configuration; the value is
stored as is, with no validation (crawl.go NewCrawler). -/
def NewCrawler (numFetchers : Int) : Crawler :=
  { numFetchers := numFetchers }

/-- Everything a crawl run depends on: the URL library, the fetch
collaborator, the worker count and the starting address. -/
structure Config where
  lib : UrlLib
  fetch : String → List String × Option String
  numFetchers : Int
  addr : String

/-- The Page Result a fetch worker emits for URL `u`:
`r := Result{URL: u}; r.Links, r.Err = c.fetch(r.URL)` (startFetcher). -/
def fetchRes (cfg : Config) (u : String) : Result :=
  { url := u, links := (cfg.fetch u).1, err := (cfg.fetch u).2 }

/-- The same-host, normalized successor strings of page `u`: exactly the
candidate strings the link-processing loop of `Crawl` would append for the
page result of `u` (before the state-dependent visited check).  An
unparseable base URL contributes nothing (the `break` path), an
unresolvable link is skipped (`continue`), and a link whose host differs
from the root host is filtered out. -/
def succs (cfg : Config) (root : GoUrl) (u : String) : List String :=
  match cfg.lib.parse u with
  | none => []
  | some base =>
    ((cfg.fetch u).1).filterMap (fun l =>
      match cfg.lib.resolveRef base l with
      | none => none
      | some link0 =>
        let link := clearFragQuery link0
        if link.host = root.host then some (cfg.lib.render link) else none)

/-- The orchestrator-owned state of the `Crawl` loop. -/
structure St where
  work : List String
  visited : List String
  inflight : List String
  results : List Result
deriving DecidableEq, Repr

/-- Initial loop state: `work := []string{addr}`, empty visited map, no
fetching in progress, no results. -/
def crawlInit (cfg : Config) : St :=
  { work := [cfg.addr], visited := [], inflight := [], results := [] }

/-- Events of one loop iteration: discard a visited head (`continue`),
send the head to a fetcher (`sendWork <- next`), or receive one page
result (`page := <-fetched`). -/
inductive Ev where
  | skip (u : String)
  | dispatch (u : String)
  | receive (u : String)
deriving DecidableEq, Repr

/-- Whether the loop reaches its `select` this iteration: it does unless
the head of the work queue is already visited (in which case the iteration
is the dequeue-time duplicate discard). -/
def selectOpen (s : St) : Bool :=
  match s.work.head? with
  | none => true
  | some w => decide (w ∉ s.visited)

/-- The links the orchestrator appends to the work queue when receiving
the page result for `u`: the same-host normalized successors that are not
yet in the visited set.  The visited set is only read here, never written,
so duplicates inside one page survive this filter. -/
def recvLinks (cfg : Config) (root : GoUrl) (s : St) (u : String) : List String :=
  (succs cfg root u).filter (fun l => decide (l ∉ s.visited))

/-- One step of the `Crawl` loop.  `skip` is the dequeue-time duplicate
discard; `dispatch` marks the head visited, removes it from the queue and
increments the in-flight set (it requires a free worker); `receive` takes
one in-flight page result: if the page URL fails to re-parse the `break`
path only decrements in-flight, otherwise the discovered links are
filtered and appended and the page result is appended to `results`. -/
def crawlStep (cfg : Config) (root : GoUrl) (s : St) : Ev → Option St
  | .skip u =>
    if s.work.head? = some u ∧ u ∈ s.visited then
      some { s with work := s.work.tail }
    else none
  | .dispatch u =>
    if s.work.head? = some u ∧ u ∉ s.visited ∧
        (s.inflight.length : Int) < cfg.numFetchers then
      some { s with work := s.work.tail, visited := u :: s.visited,
                    inflight := s.inflight ++ [u] }
    else none
  | .receive u =>
    if u ∈ s.inflight ∧ selectOpen s = true then
      match cfg.lib.parse u with
      | none => some { s with inflight := s.inflight.erase u }
      | some _ =>
        some { s with inflight := s.inflight.erase u,
                      work := s.work ++ recvLinks cfg root s u,
                      results := s.results ++ [fetchRes cfg u] }
    else none

/-- Run a trace of loop events from a state. -/
def crawlRun (cfg : Config) (root : GoUrl) : St → List Ev → Option St
  | s, [] => some s
  | s, e :: tr =>
    match crawlStep cfg root s e with
    | none => none
    | some s' => crawlRun cfg root s' tr

/-- The loop exit condition: queue empty and no fetching in progress
(`close(tofetch); break`). -/
def Final (s : St) : Prop :=
  s.work = [] ∧ s.inflight = []

instance (s : St) : Decidable (Final s) :=
  inferInstanceAs (Decidable (s.work = [] ∧ s.inflight = []))

/-- The URLs reachable from the seed through resolved, normalized,
same-host links: the seed itself, and the successors of any reachable
page. -/
inductive Reaches (cfg : Config) (root : GoUrl) : String → Prop
  | seed : Reaches cfg root cfg.addr
  | link {u v : String} : Reaches cfg root u → v ∈ succs cfg root u →
      Reaches cfg root v

/-- The result clean-up: `sort.Strings(res.Links)` on one entry. -/
def sortLinks (r : Result) : Result :=
  { r with links := List.insertionSort (fun a b => a ≤ b) r.links }

/-- The result clean-up after the loop: each link list sorted, then the
entries sorted by URL (`sort.Slice`). -/
def crawlReturn (s : St) : List Result :=
  List.insertionSort (fun a b => a.url ≤ b.url) (s.results.map sortLinks)

/-- Whether a trace is a completed crawl: a valid run from the initial
state that ends in the loop exit condition. -/
def runCompletes (cfg : Config) (root : GoUrl) (tr : List Ev) : Bool :=
  match crawlRun cfg root (crawlInit cfg) tr with
  | some s => decide (Final s)
  | none => false

/-- The value `Crawl` returns for a completed trace ([] otherwise). -/
def runOutput (cfg : Config) (root : GoUrl) (tr : List Ev) : List Result :=
  match crawlRun cfg root (crawlInit cfg) tr with
  | some s => if Final s then crawlReturn s else []
  | none => []

/-- The dedup key of a URL string per the spec: parse, strip fragment and
query, serialize (identity on strings the library cannot parse). -/
def normKey (lib : UrlLib) (s : String) : String :=
  match lib.parse s with
  | some g => lib.render (clearFragQuery g)
  | none => s

/-- Number of invocations of the fetch collaborator with URL `u` in a
trace: each dispatch hands `u` to exactly one worker, whose loop body
calls `c.fetch` exactly once per received URL (startFetcher). -/
def fetchCalls (tr : List Ev) (u : String) : Nat :=
  List.count (Ev.dispatch u) tr

/-- Number of frontier entries for `u` appended while running a trace
(i.e. by the receive steps; the initial seed entry is not counted here). -/
def enqueueCount (cfg : Config) (root : GoUrl) : St → List Ev → String → Nat
  | _, [], _ => 0
  | s, e :: tr, u =>
    match crawlStep cfg root s e with
    | none => 0
    | some s' =>
      (match e with
       | .receive v =>
         if v ∈ s.inflight ∧ selectOpen s = true then
           match cfg.lib.parse v with
           | none => 0
           | some _ => (recvLinks cfg root s v).count u
         else 0
       | _ => 0) + enqueueCount cfg root s' tr u

/-- Total number of times `u` enters the frontier over a whole run: the
seed entry plus all appends of the trace. -/
def totalEnqueued (cfg : Config) (root : GoUrl) (tr : List Ev) (u : String) : Nat :=
  (crawlInit cfg).work.count u + enqueueCount cfg root (crawlInit cfg) tr u

/-- The HTTP response data `getHTTP` inspects: the status code, and the
outcome of `ioutil.ReadAll(res.Body)` (bytes read and optional read
error). -/
structure HttpResponse where
  statusCode : Nat
  body : List Nat
  bodyErr : Option String
deriving DecidableEq, Repr

/-- getHTTP (crawl.go): an error from `http.Get` is returned with nil
bytes; a response with status code other than 200 is returned as an error
with nil bytes; otherwise the outcome of reading the body is returned as
is. -/
def getHTTP (get : String → Except String HttpResponse) (addr : String) :
    List Nat × Option String :=
  match get addr with
  | .error e => ([], some ("getHTTP(" ++ addr ++ ") failed GET request: " ++ e))
  | .ok res =>
    if res.statusCode ≠ 200 then
      ([], some ("getHTTP(" ++ addr ++ ") got bad HTTP response code"))
    else (res.body, res.bodyErr)

/-- Whether a status code is a success (2xx) status, the granularity the
spec describes. -/
def is2xx (code : Nat) : Prop :=
  200 ≤ code ∧ code ≤ 299

instance (code : Nat) : Decidable (is2xx code) :=
  inferInstanceAs (Decidable (200 ≤ code ∧ code ≤ 299))

/-- The outcome `Crawl` reports for a trace: the seed-parse failure is the
only crawl-level error; a completed trace returns the finalized results.
`none` marks traces that are invalid or not yet complete. -/
def crawlResult (cfg : Config) (tr : List Ev) :
    Option (Except String (List Result)) :=
  match cfg.lib.parse cfg.addr with
  | none => some (Except.error ("invalid starting URL " ++ cfg.addr))
  | some root =>
    match crawlRun cfg root (crawlInit cfg) tr with
    | some s => if Final s then some (Except.ok (crawlReturn s)) else none
    | none => none

/-! Concrete instances used for witnesses and counterexamples.  The URL
library instances are small tables: the library is an external collaborator
of the crawl package, so any deterministic instance of its interface is a
legitimate test double. -/

/-- Standard serialization of the modelled URL fields. -/
def renderStd (g : GoUrl) : String :=
  g.scheme ++ "://" ++ g.host ++ g.path ++
    (if g.rawQuery = "" then "" else "?" ++ g.rawQuery) ++
    (if g.fragment = "" then "" else "#" ++ g.fragment)

def uHome : GoUrl := { scheme := "https", host := "h", path := "/", rawQuery := "", fragment := "" }

def uA : GoUrl := { scheme := "https", host := "h", path := "/a", rawQuery := "", fragment := "" }

def uB : GoUrl := { scheme := "https", host := "h", path := "/b", rawQuery := "", fragment := "" }

def uC : GoUrl := { scheme := "https", host := "h", path := "/c", rawQuery := "", fragment := "" }

def uX : GoUrl := { scheme := "https", host := "x", path := "/", rawQuery := "", fragment := "" }

def uAq : GoUrl := { scheme := "https", host := "h", path := "/a", rawQuery := "q=1", fragment := "" }

def uW : GoUrl := { scheme := "https", host := "h", path := "/w", rawQuery := "", fragment := "" }

/-- Table URL library for the four-page example site. -/
def libA : UrlLib where
  parse s :=
    if s = "https://h/" then some uHome
    else if s = "https://h/a" then some uA
    else if s = "https://h/b" then some uB
    else if s = "https://h/c" then some uC
    else if s = "https://x/" then some uX
    else none
  resolveRef _ l :=
    if l = "a" then some uA
    else if l = "b" then some uB
    else if l = "c" then some uC
    else if l = "https://x/" then some uX
    else none
  render := renderStd

/-- Four-page same-host site: the home page links to a and b, page a lists
the same link c twice, page b fails to fetch, page c links cross-host and
back to b. -/
def fetchA (s : String) : List String × Option String :=
  if s = "https://h/" then (["a", "b"], none)
  else if s = "https://h/a" then (["c", "c"], none)
  else if s = "https://h/b" then ([], some "boom")
  else if s = "https://h/c" then (["https://x/", "b"], none)
  else ([], some ("url " ++ s ++ " not found"))

def cfgA : Config :=
  { lib := libA, fetch := fetchA, numFetchers := 1, addr := "https://h/" }

def rootA : GoUrl := uHome

/-- A closed superset of the reachable URLs of `cfgA`. -/
def listRA : List String := ["https://h/", "https://h/a", "https://h/b", "https://h/c"]

/-- The (deterministic, single-fetcher) schedule of `cfgA`. -/
def traceA : List Ev :=
  [Ev.dispatch "https://h/", Ev.receive "https://h/",
   Ev.dispatch "https://h/a", Ev.receive "https://h/a",
   Ev.dispatch "https://h/b", Ev.receive "https://h/b",
   Ev.dispatch "https://h/c", Ev.skip "https://h/c", Ev.receive "https://h/c"]

/-- Library for the query-carrying seed example. -/
def libB : UrlLib where
  parse s :=
    if s = "https://h/a?q=1" then some uAq
    else if s = "https://h/a" then some uA
    else none
  resolveRef _ l := if l = "a" then some uA else none
  render := renderStd

def fetchB (s : String) : List String × Option String :=
  if s = "https://h/a?q=1" then (["a"], none)
  else if s = "https://h/a" then ([], none)
  else ([], some ("url " ++ s ++ " not found"))

def cfgB : Config :=
  { lib := libB, fetch := fetchB, numFetchers := 1, addr := "https://h/a?q=1" }

def rootB : GoUrl := uAq

def listRB : List String := ["https://h/a?q=1", "https://h/a"]

def traceB : List Ev :=
  [Ev.dispatch "https://h/a?q=1", Ev.receive "https://h/a?q=1",
   Ev.dispatch "https://h/a", Ev.receive "https://h/a"]

/-- Library in which the serialized form of one discovered link does not
re-parse: the interface of the external library does not promise
round-tripping, and the orchestrator has a dedicated path for this case. -/
def libC : UrlLib where
  parse s := if s = "https://h/" then some uHome else none
  resolveRef _ l := if l = "w" then some uW else none
  render := renderStd

def fetchC (s : String) : List String × Option String :=
  if s = "https://h/" then (["w"], none)
  else if s = "https://h/w" then ([], some "errw")
  else ([], some ("url " ++ s ++ " not found"))

def cfgC : Config :=
  { lib := libC, fetch := fetchC, numFetchers := 1, addr := "https://h/" }

def rootC : GoUrl := uHome

def traceC : List Ev :=
  [Ev.dispatch "https://h/", Ev.receive "https://h/",
   Ev.dispatch "https://h/w", Ev.receive "https://h/w"]


/-! Step inversion and construction lemmas -/

theorem crawlStep_skip_inv {cfg : Config} {root : GoUrl} {s s' : St} {u : String}
    (h : crawlStep cfg root s (Ev.skip u) = some s') :
    s.work.head? = some u ∧ u ∈ s.visited ∧ s' = { s with work := s.work.tail } := by
  by_cases hc : s.work.head? = some u ∧ u ∈ s.visited
  · simp only [crawlStep, if_pos hc, Option.some.injEq] at h
    exact ⟨hc.1, hc.2, h.symm⟩
  · simp only [crawlStep, if_neg hc] at h
    cases h

theorem crawlStep_dispatch_inv {cfg : Config} {root : GoUrl} {s s' : St} {u : String}
    (h : crawlStep cfg root s (Ev.dispatch u) = some s') :
    s.work.head? = some u ∧ u ∉ s.visited ∧
      (s.inflight.length : Int) < cfg.numFetchers ∧
      s' = { s with work := s.work.tail, visited := u :: s.visited,
                    inflight := s.inflight ++ [u] } := by
  by_cases hc : s.work.head? = some u ∧ u ∉ s.visited ∧
      (s.inflight.length : Int) < cfg.numFetchers
  · simp only [crawlStep, if_pos hc, Option.some.injEq] at h
    exact ⟨hc.1, hc.2.1, hc.2.2, h.symm⟩
  · simp only [crawlStep, if_neg hc] at h
    cases h

theorem crawlStep_receive_inv {cfg : Config} {root : GoUrl} {s s' : St} {u : String}
    (h : crawlStep cfg root s (Ev.receive u) = some s') :
    u ∈ s.inflight ∧ selectOpen s = true ∧
      ((cfg.lib.parse u = none ∧ s' = { s with inflight := s.inflight.erase u }) ∨
       ((cfg.lib.parse u).isSome = true ∧
        s' = { s with inflight := s.inflight.erase u,
                      work := s.work ++ recvLinks cfg root s u,
                      results := s.results ++ [fetchRes cfg u] })) := by
  by_cases hc : u ∈ s.inflight ∧ selectOpen s = true
  · refine ⟨hc.1, hc.2, ?_⟩
    cases hp : cfg.lib.parse u with
    | none =>
      simp only [crawlStep, if_pos hc, hp, Option.some.injEq] at h
      exact Or.inl ⟨rfl, h.symm⟩
    | some b =>
      simp only [crawlStep, if_pos hc, hp, Option.some.injEq] at h
      exact Or.inr ⟨by simp, h.symm⟩
  · simp only [crawlStep, if_neg hc] at h
    cases h

theorem crawlStep_skip_some {cfg : Config} {root : GoUrl} {s : St} {u : String}
    (h1 : s.work.head? = some u) (h2 : u ∈ s.visited) :
    crawlStep cfg root s (Ev.skip u) = some { s with work := s.work.tail } := by
  simp only [crawlStep, if_pos (And.intro h1 h2)]

theorem crawlStep_dispatch_some {cfg : Config} {root : GoUrl} {s : St} {u : String}
    (h1 : s.work.head? = some u) (h2 : u ∉ s.visited)
    (h3 : (s.inflight.length : Int) < cfg.numFetchers) :
    crawlStep cfg root s (Ev.dispatch u) =
      some { s with work := s.work.tail, visited := u :: s.visited,
                    inflight := s.inflight ++ [u] } := by
  simp only [crawlStep, if_pos (And.intro h1 (And.intro h2 h3))]

theorem crawlStep_receive_some {cfg : Config} {root : GoUrl} {s : St} {u : String}
    (h1 : u ∈ s.inflight) (h2 : selectOpen s = true) :
    ∃ s', crawlStep cfg root s (Ev.receive u) = some s' := by
  cases hp : cfg.lib.parse u with
  | none =>
    refine ⟨{ s with inflight := s.inflight.erase u }, ?_⟩
    simp only [crawlStep, if_pos (And.intro h1 h2), hp]
  | some b =>
    refine ⟨{ s with inflight := s.inflight.erase u,
                     work := s.work ++ recvLinks cfg root s u,
                     results := s.results ++ [fetchRes cfg u] }, ?_⟩
    simp only [crawlStep, if_pos (And.intro h1 h2), hp]

/-! Run lemmas -/

theorem crawlRun_cons_some {cfg : Config} {root : GoUrl} {s s₁ : St} {e : Ev}
    (tr : List Ev) (h : crawlStep cfg root s e = some s₁) :
    crawlRun cfg root s (e :: tr) = crawlRun cfg root s₁ tr := by
  simp only [crawlRun, h]

theorem crawlRun_cons_inv {cfg : Config} {root : GoUrl} {s s' : St} {e : Ev}
    {tr : List Ev} (h : crawlRun cfg root s (e :: tr) = some s') :
    ∃ s₁, crawlStep cfg root s e = some s₁ ∧ crawlRun cfg root s₁ tr = some s' := by
  cases hs : crawlStep cfg root s e with
  | none => rw [crawlRun, hs] at h; cases h
  | some s₁ => exact ⟨s₁, rfl, by rw [crawlRun, hs] at h; exact h⟩

theorem crawlRun_nil_inv {cfg : Config} {root : GoUrl} {s s' : St}
    (h : crawlRun cfg root s [] = some s') : s' = s := by
  simpa [crawlRun] using h.symm

/-- Every step only adds to the visited set. -/
theorem visited_mono_step {cfg : Config} {root : GoUrl} {s s' : St} {e : Ev}
    (h : crawlStep cfg root s e = some s') :
    ∀ v ∈ s.visited, v ∈ s'.visited := by
  cases e with
  | skip u =>
    obtain ⟨_, _, rfl⟩ := crawlStep_skip_inv h
    exact fun v hv => hv
  | dispatch u =>
    obtain ⟨_, _, _, rfl⟩ := crawlStep_dispatch_inv h
    exact fun v hv => List.mem_cons_of_mem _ hv
  | receive u =>
    obtain ⟨_, _, hca | hca⟩ := crawlStep_receive_inv h <;>
      (obtain ⟨_, rfl⟩ := hca; exact fun v hv => hv)

/-- A list whose head is known is a cons. -/
theorem eq_cons_of_head? {α : Type} {l : List α} {a : α} (h : l.head? = some a) :
    l = a :: l.tail := by
  cases l with
  | nil => cases h
  | cons b bs =>
    simp only [List.head?, Option.some.injEq] at h
    rw [h]
    rfl

/-- The inductive invariant of the `Crawl` loop: the in-flight URLs and
result URLs are marked visited, are mutually distinct, and together with
the unparseable pages account for the whole visited set; every result is
the page result of its own URL and re-parses; the successors of every
processed page are visited or queued; the seed is visited or queued; and
everything the loop has touched is reachable from the seed. -/
structure InvA (cfg : Config) (root : GoUrl) (s : St) : Prop where
  infl_vis : ∀ v ∈ s.inflight, v ∈ s.visited
  res_det : ∀ r ∈ s.results, r = fetchRes cfg r.url
  res_vis : ∀ r ∈ s.results, r.url ∈ s.visited
  res_parse : ∀ r ∈ s.results, (cfg.lib.parse r.url).isSome = true
  nodup_ir : (s.inflight ++ s.results.map Result.url).Nodup
  vis_split : ∀ v ∈ s.visited,
    v ∈ s.inflight ∨ v ∈ s.results.map Result.url ∨ cfg.lib.parse v = none
  processed : ∀ r ∈ s.results, ∀ v ∈ succs cfg root r.url,
    v ∈ s.visited ∨ v ∈ s.work
  seed_in : cfg.addr ∈ s.visited ∨ cfg.addr ∈ s.work
  work_reach : ∀ w ∈ s.work, Reaches cfg root w
  vis_reach : ∀ v ∈ s.visited, Reaches cfg root v
  nodup_vis : s.visited.Nodup

theorem invA_init (cfg : Config) (root : GoUrl) : InvA cfg root (crawlInit cfg) where
  infl_vis := by simp [crawlInit]
  res_det := by simp [crawlInit]
  res_vis := by simp [crawlInit]
  res_parse := by simp [crawlInit]
  nodup_ir := by simp [crawlInit]
  vis_split := by simp [crawlInit]
  processed := by simp [crawlInit]
  seed_in := Or.inr (by simp [crawlInit])
  work_reach := by
    intro w hw
    simp only [crawlInit, List.mem_singleton] at hw
    subst hw
    exact Reaches.seed
  vis_reach := by simp [crawlInit]
  nodup_vis := by simp [crawlInit]

theorem invA_step {cfg : Config} {root : GoUrl} {s s' : St} {e : Ev}
    (inv : InvA cfg root s) (h : crawlStep cfg root s e = some s') :
    InvA cfg root s' := by
  cases e with
  | skip u =>
    obtain ⟨hh, hv, rfl⟩ := crawlStep_skip_inv h
    have hws : s.work = u :: s.work.tail := eq_cons_of_head? hh
    refine ⟨inv.infl_vis, inv.res_det, inv.res_vis, inv.res_parse, inv.nodup_ir,
      inv.vis_split, ?_, ?_, ?_, inv.vis_reach, inv.nodup_vis⟩
    · intro r hr v hsv
      rcases inv.processed r hr v hsv with hc | hc
      · exact Or.inl hc
      · rw [hws] at hc
        rcases List.mem_cons.mp hc with rfl | hc
        · exact Or.inl hv
        · exact Or.inr hc
    · rcases inv.seed_in with hc | hc
      · exact Or.inl hc
      · rw [hws] at hc
        rcases List.mem_cons.mp hc with rfl | hc
        · exact Or.inl hv
        · exact Or.inr hc
    · intro w hw
      exact inv.work_reach w (by rw [hws]; exact List.mem_cons_of_mem _ hw)
  | dispatch u =>
    obtain ⟨hh, hnv, hcap, rfl⟩ := crawlStep_dispatch_inv h
    have hws : s.work = u :: s.work.tail := eq_cons_of_head? hh
    have huw : u ∈ s.work := by rw [hws]; exact List.mem_cons_self u _
    have hui : u ∉ s.inflight := fun hc => hnv (inv.infl_vis u hc)
    have hur : u ∉ s.results.map Result.url := by
      intro hc
      rcases List.mem_map.mp hc with ⟨r, hr, hru⟩
      exact hnv (hru ▸ inv.res_vis r hr)
    refine ⟨?_, inv.res_det, ?_, inv.res_parse, ?_, ?_, ?_, ?_, ?_, ?_, ?_⟩
    · intro v hvm
      rcases List.mem_append.mp hvm with hc | hc
      · exact List.mem_cons_of_mem _ (inv.infl_vis v hc)
      · rcases List.mem_singleton.mp hc with rfl
        exact List.mem_cons_self _ _
    · intro r hr
      exact List.mem_cons_of_mem _ (inv.res_vis r hr)
    · have hperm : List.Perm ((s.inflight ++ [u]) ++ s.results.map Result.url)
          (u :: (s.inflight ++ s.results.map Result.url)) := by
        rw [List.append_assoc]
        exact List.perm_middle
      refine hperm.symm.nodup ?_
      exact List.Nodup.cons
        (fun hc => (List.mem_append.mp hc).elim hui hur) inv.nodup_ir
    · intro v hvm
      rcases List.mem_cons.mp hvm with rfl | hvm
      · exact Or.inl (List.mem_append.mpr (Or.inr (List.mem_singleton.mpr rfl)))
      · rcases inv.vis_split v hvm with hc | hc
        · exact Or.inl (List.mem_append.mpr (Or.inl hc))
        · exact Or.inr hc
    · intro r hr v hsv
      rcases inv.processed r hr v hsv with hc | hc
      · exact Or.inl (List.mem_cons_of_mem _ hc)
      · rw [hws] at hc
        rcases List.mem_cons.mp hc with rfl | hc
        · exact Or.inl (List.mem_cons_self _ _)
        · exact Or.inr hc
    · rcases inv.seed_in with hc | hc
      · exact Or.inl (List.mem_cons_of_mem _ hc)
      · rw [hws] at hc
        rcases List.mem_cons.mp hc with rfl | hc
        · exact Or.inl (List.mem_cons_self _ _)
        · exact Or.inr hc
    · intro w hw
      exact inv.work_reach w (by rw [hws]; exact List.mem_cons_of_mem _ hw)
    · intro v hvm
      rcases List.mem_cons.mp hvm with rfl | hvm
      · exact inv.work_reach v huw
      · exact inv.vis_reach v hvm
    · exact List.Nodup.cons hnv inv.nodup_vis
  | receive u =>
    obtain ⟨hmem, hsel, hca | hca⟩ := crawlStep_receive_inv h
    · obtain ⟨hpn, rfl⟩ := hca
      refine ⟨?_, inv.res_det, inv.res_vis, inv.res_parse, ?_, ?_,
        inv.processed, inv.seed_in, inv.work_reach, inv.vis_reach, inv.nodup_vis⟩
      · intro v hvm
        exact inv.infl_vis v (List.mem_of_mem_erase hvm)
      · exact inv.nodup_ir.sublist
          (List.Sublist.append_right (List.erase_sublist u s.inflight) _)
      · intro v hvm
        rcases inv.vis_split v hvm with hc | hc
        · by_cases hvu : v = u
          · subst hvu
            exact Or.inr (Or.inr hpn)
          · exact Or.inl ((List.mem_erase_of_ne hvu).mpr hc)
        · exact Or.inr hc
    · obtain ⟨hps, rfl⟩ := hca
      have huv : u ∈ s.visited := inv.infl_vis u hmem
      have hmapurl : (s.results ++ [fetchRes cfg u]).map Result.url =
          s.results.map Result.url ++ [u] := by
        rw [List.map_append]
        rfl
      refine ⟨?_, ?_, ?_, ?_, ?_, ?_, ?_, ?_, ?_, inv.vis_reach, inv.nodup_vis⟩
      · intro v hvm
        exact inv.infl_vis v (List.mem_of_mem_erase hvm)
      · intro r hr
        rcases List.mem_append.mp hr with hc | hc
        · exact inv.res_det r hc
        · rcases List.mem_singleton.mp hc with rfl
          rfl
      · intro r hr
        rcases List.mem_append.mp hr with hc | hc
        · exact inv.res_vis r hc
        · rcases List.mem_singleton.mp hc with rfl
          exact huv
      · intro r hr
        rcases List.mem_append.mp hr with hc | hc
        · exact inv.res_parse r hc
        · rcases List.mem_singleton.mp hc with rfl
          exact hps
      · rw [hmapurl]
        have h1 : List.Perm (s.inflight ++ s.results.map Result.url)
            (u :: (s.inflight.erase u ++ s.results.map Result.url)) :=
          (List.perm_cons_erase hmem).append_right (s.results.map Result.url)
        have hstep1 : List.Perm (s.results.map Result.url ++ [u])
            (u :: s.results.map Result.url) :=
          List.perm_append_singleton u (s.results.map Result.url)
        have h2 : List.Perm
            (s.inflight.erase u ++ (s.results.map Result.url ++ [u]))
            (u :: (s.inflight.erase u ++ s.results.map Result.url)) :=
          (hstep1.append_left (s.inflight.erase u)).trans List.perm_middle
        exact h2.symm.nodup (h1.nodup inv.nodup_ir)
      · intro v hvm
        rw [hmapurl]
        rcases inv.vis_split v hvm with hc | hc
        · by_cases hvu : v = u
          · subst hvu
            exact Or.inr (Or.inl (List.mem_append.mpr
              (Or.inr (List.mem_singleton.mpr rfl))))
          · exact Or.inl ((List.mem_erase_of_ne hvu).mpr hc)
        · rcases hc with hc | hc
          · exact Or.inr (Or.inl (List.mem_append.mpr (Or.inl hc)))
          · exact Or.inr (Or.inr hc)
      · intro r hr v hsv
        rcases List.mem_append.mp hr with hc | hc
        · rcases inv.processed r hc v hsv with hd | hd
          · exact Or.inl hd
          · exact Or.inr (List.mem_append.mpr (Or.inl hd))
        · rcases List.mem_singleton.mp hc with rfl
          by_cases hvv : v ∈ s.visited
          · exact Or.inl hvv
          · refine Or.inr (List.mem_append.mpr (Or.inr ?_))
            refine List.mem_filter.mpr ⟨?_, ?_⟩
            · simpa [fetchRes] using hsv
            · exact decide_eq_true hvv
      · rcases inv.seed_in with hc | hc
        · exact Or.inl hc
        · exact Or.inr (List.mem_append.mpr (Or.inl hc))
      · intro w hw
        rcases List.mem_append.mp hw with hc | hc
        · exact inv.work_reach w hc
        · have hsw : w ∈ succs cfg root u := List.mem_of_mem_filter hc
          exact Reaches.link (inv.vis_reach u huv) hsw

theorem invA_run {cfg : Config} {root : GoUrl} :
    ∀ {tr : List Ev} {s s' : St}, InvA cfg root s →
      crawlRun cfg root s tr = some s' → InvA cfg root s' := by
  intro tr
  induction tr with
  | nil =>
    intro s s' inv h
    rw [crawlRun_nil_inv h]
    exact inv
  | cons e tr ih =>
    intro s s' inv h
    obtain ⟨s₁, hs, hr⟩ := crawlRun_cons_inv h
    exact ih (invA_step inv hs) hr

theorem invA_run_init {cfg : Config} {root : GoUrl} {tr : List Ev} {s' : St}
    (h : crawlRun cfg root (crawlInit cfg) tr = some s') : InvA cfg root s' :=
  invA_run (invA_init cfg root) h

/-- Shape of every successor string: the serialization of a URL record on
the root host whose fragment and query have been cleared. -/
theorem succs_mem_inv {cfg : Config} {root : GoUrl} {u v : String}
    (h : v ∈ succs cfg root u) :
    ∃ g : GoUrl, g.host = root.host ∧ g.rawQuery = "" ∧ g.fragment = "" ∧
      v = cfg.lib.render g := by
  unfold succs at h
  cases hp : cfg.lib.parse u with
  | none => rw [hp] at h; cases h
  | some base =>
    rw [hp] at h
    obtain ⟨l, hl, hf⟩ := List.mem_filterMap.mp h
    cases hr : cfg.lib.resolveRef base l with
    | none => rw [hr] at hf; cases hf
    | some link0 =>
      rw [hr] at hf
      by_cases hh : (clearFragQuery link0).host = root.host
      · simp only [hh, if_true, Option.some.injEq] at hf
        exact ⟨clearFragQuery link0, hh, rfl, rfl, hf.symm⟩
      · simp only [hh, if_false] at hf
        cases hf

/-- A URL string is host-contained if it is the seed itself or the
serialization of a fragment-and-query-free URL record on the root host. -/
def HostOk (cfg : Config) (root : GoUrl) (u : String) : Prop :=
  u = cfg.addr ∨ ∃ g : GoUrl, g.host = root.host ∧ g.rawQuery = "" ∧
    g.fragment = "" ∧ u = cfg.lib.render g

/-- Host containment invariant: every queued and every visited URL is
host-contained. -/
structure InvH (cfg : Config) (root : GoUrl) (s : St) : Prop where
  work_h : ∀ w ∈ s.work, HostOk cfg root w
  vis_h : ∀ v ∈ s.visited, HostOk cfg root v

theorem invH_init (cfg : Config) (root : GoUrl) : InvH cfg root (crawlInit cfg) where
  work_h := by
    intro w hw
    simp only [crawlInit, List.mem_singleton] at hw
    exact Or.inl hw
  vis_h := by simp [crawlInit]

theorem invH_step {cfg : Config} {root : GoUrl} {s s' : St} {e : Ev}
    (inv : InvH cfg root s) (h : crawlStep cfg root s e = some s') :
    InvH cfg root s' := by
  cases e with
  | skip u =>
    obtain ⟨hh, hv, rfl⟩ := crawlStep_skip_inv h
    exact ⟨fun w hw => inv.work_h w (List.tail_subset _ hw), inv.vis_h⟩
  | dispatch u =>
    obtain ⟨hh, hnv, hcap, rfl⟩ := crawlStep_dispatch_inv h
    have hws : s.work = u :: s.work.tail := eq_cons_of_head? hh
    refine ⟨fun w hw => inv.work_h w (List.tail_subset _ hw), ?_⟩
    intro v hvm
    rcases List.mem_cons.mp hvm with rfl | hvm
    · exact inv.work_h v (by rw [hws]; exact List.mem_cons_self _ _)
    · exact inv.vis_h v hvm
  | receive u =>
    obtain ⟨hmem, hsel, hca | hca⟩ := crawlStep_receive_inv h
    · obtain ⟨_, rfl⟩ := hca
      exact ⟨inv.work_h, inv.vis_h⟩
    · obtain ⟨_, rfl⟩ := hca
      refine ⟨?_, inv.vis_h⟩
      intro w hw
      rcases List.mem_append.mp hw with hc | hc
      · exact inv.work_h w hc
      · exact Or.inr (succs_mem_inv (List.mem_of_mem_filter hc))

theorem invH_run_init {cfg : Config} {root : GoUrl} {tr : List Ev} {s' : St}
    (h : crawlRun cfg root (crawlInit cfg) tr = some s') : InvH cfg root s' := by
  suffices hgen : ∀ {tr : List Ev} {s s' : St}, InvH cfg root s →
      crawlRun cfg root s tr = some s' → InvH cfg root s' from
    hgen (invH_init cfg root) h
  intro tr
  induction tr with
  | nil =>
    intro s s' inv hr
    rw [crawlRun_nil_inv hr]
    exact inv
  | cons e tr ih =>
    intro s s' inv hr
    obtain ⟨s₁, hs, hr'⟩ := crawlRun_cons_inv hr
    exact ih (invH_step inv hs) hr'

/-- Membership invariant relative to a closed superset `R` of the whole
crawl, for the termination measure. -/
structure InvR (cfg : Config) (root : GoUrl) (R : List String) (s : St) : Prop where
  work_R : ∀ w ∈ s.work, w ∈ R
  vis_R : ∀ v ∈ s.visited, v ∈ R

theorem invR_init {cfg : Config} {root : GoUrl} {R : List String}
    (haddr : cfg.addr ∈ R) : InvR cfg root R (crawlInit cfg) where
  work_R := by
    intro w hw
    simp only [crawlInit, List.mem_singleton] at hw
    exact hw ▸ haddr
  vis_R := by simp [crawlInit]

theorem invR_step {cfg : Config} {root : GoUrl} {R : List String} {s s' : St}
    {e : Ev} (hcl : ∀ u ∈ R, ∀ v ∈ succs cfg root u, v ∈ R)
    (invA : InvA cfg root s) (inv : InvR cfg root R s)
    (h : crawlStep cfg root s e = some s') : InvR cfg root R s' := by
  cases e with
  | skip u =>
    obtain ⟨hh, hv, rfl⟩ := crawlStep_skip_inv h
    exact ⟨fun w hw => inv.work_R w (List.tail_subset _ hw), inv.vis_R⟩
  | dispatch u =>
    obtain ⟨hh, hnv, hcap, rfl⟩ := crawlStep_dispatch_inv h
    have hws : s.work = u :: s.work.tail := eq_cons_of_head? hh
    refine ⟨fun w hw => inv.work_R w (List.tail_subset _ hw), ?_⟩
    intro v hvm
    rcases List.mem_cons.mp hvm with rfl | hvm
    · exact inv.work_R v (by rw [hws]; exact List.mem_cons_self _ _)
    · exact inv.vis_R v hvm
  | receive u =>
    obtain ⟨hmem, hsel, hca | hca⟩ := crawlStep_receive_inv h
    · obtain ⟨_, rfl⟩ := hca
      exact ⟨inv.work_R, inv.vis_R⟩
    · obtain ⟨_, rfl⟩ := hca
      refine ⟨?_, inv.vis_R⟩
      intro w hw
      rcases List.mem_append.mp hw with hc | hc
      · exact inv.work_R w hc
      · exact hcl u (inv.vis_R u (invA.infl_vis u hmem)) w
          (List.mem_of_mem_filter hc)

/-! Termination measure -/

theorem le_foldr_max {l : List Nat} {x : Nat} (h : x ∈ l) :
    x ≤ l.foldr Nat.max 0 := by
  induction l with
  | nil => cases h
  | cons a as ih =>
    rcases List.mem_cons.mp h with rfl | h
    · exact Nat.le_max_left _ _
    · exact le_trans (ih h) (Nat.le_max_right _ _)

/-- Upper bound on the number of links any page of `R` can contribute. -/
def lmaxOf (cfg : Config) (root : GoUrl) (R : List String) : Nat :=
  (R.dedup.map (fun v => (succs cfg root v).length)).foldr Nat.max 0

theorem succs_length_le_lmaxOf {cfg : Config} {root : GoUrl} {R : List String}
    {u : String} (h : u ∈ R) :
    (succs cfg root u).length ≤ lmaxOf cfg root R :=
  le_foldr_max (List.mem_map.mpr ⟨u, List.mem_dedup.mpr h, rfl⟩)

/-- Marking a fresh element of a duplicate-free list visited shrinks the
set of unvisited elements by exactly one. -/
theorem filter_cons_vis_length {l : List String} (hnd : l.Nodup) {a : String}
    (ha : a ∈ l) {vis : List String} (hav : a ∉ vis) :
    (l.filter (fun v => decide (v ∉ a :: vis))).length + 1 =
      (l.filter (fun v => decide (v ∉ vis))).length := by
  induction l with
  | nil => cases ha
  | cons b bs ih =>
    rw [List.nodup_cons] at hnd
    rcases List.mem_cons.mp ha with rfl | hmem
    · have h1 : ¬ ((fun v => decide (v ∉ a :: vis)) a = true) := by simp
      have h2 : (fun v => decide (v ∉ vis)) a = true := decide_eq_true hav
      rw [List.filter_cons_of_neg (p := fun v => decide (v ∉ a :: vis)) h1,
        List.filter_cons_of_pos (p := fun v => decide (v ∉ vis)) h2]
      have hfe : bs.filter (fun v => decide (v ∉ a :: vis)) =
          bs.filter (fun v => decide (v ∉ vis)) := by
        refine List.filter_congr ?_
        intro x hx
        have hxb : x ≠ a := fun hc => hnd.1 (hc ▸ hx)
        exact decide_eq_decide.mpr (by simp [List.mem_cons, hxb])
      rw [hfe]
      rfl
    · have hba : b ≠ a := fun hc => hnd.1 (hc ▸ hmem)
      by_cases hbv : b ∈ vis
      · have h1 : ¬ ((fun v => decide (v ∉ a :: vis)) b = true) := by
          simp [List.mem_cons, hbv]
        have h2 : ¬ ((fun v => decide (v ∉ vis)) b = true) := by simp [hbv]
        rw [List.filter_cons_of_neg (p := fun v => decide (v ∉ a :: vis)) h1,
          List.filter_cons_of_neg (p := fun v => decide (v ∉ vis)) h2]
        exact ih hnd.2 hmem
      · have h1 : ((fun v => decide (v ∉ a :: vis)) b) = true := by
          simp [List.mem_cons, hbv, hba]
        have h2 : ((fun v => decide (v ∉ vis)) b) = true := by simp [hbv]
        rw [List.filter_cons_of_pos (p := fun v => decide (v ∉ a :: vis)) h1,
          List.filter_cons_of_pos (p := fun v => decide (v ∉ vis)) h2]
        simp only [List.length_cons]
        rw [← ih hnd.2 hmem]

/-- Termination measure for the crawl loop relative to a closed finite
superset `R` of the crawl: unvisited `R`-elements are the most expensive,
then in-flight fetches, then queued entries. -/
def crawlMeasure (cfg : Config) (root : GoUrl) (R : List String) (s : St) : Nat :=
  (R.dedup.filter (fun v => decide (v ∉ s.visited))).length * (lmaxOf cfg root R + 2)
    + s.inflight.length * (lmaxOf cfg root R + 1) + s.work.length

theorem measure_step_lt {cfg : Config} {root : GoUrl} {R : List String}
    {s s' : St} {e : Ev} (invA : InvA cfg root s) (invR : InvR cfg root R s)
    (h : crawlStep cfg root s e = some s') :
    crawlMeasure cfg root R s' < crawlMeasure cfg root R s := by
  cases e with
  | skip u =>
    obtain ⟨hh, hv, rfl⟩ := crawlStep_skip_inv h
    have hws : s.work = u :: s.work.tail := eq_cons_of_head? hh
    have hlen : s.work.length = s.work.tail.length + 1 := by rw [hws]; rfl
    show (R.dedup.filter (fun v => decide (v ∉ s.visited))).length * (lmaxOf cfg root R + 2)
        + s.inflight.length * (lmaxOf cfg root R + 1) + s.work.tail.length
      < (R.dedup.filter (fun v => decide (v ∉ s.visited))).length * (lmaxOf cfg root R + 2)
        + s.inflight.length * (lmaxOf cfg root R + 1) + s.work.length
    omega
  | dispatch u =>
    obtain ⟨hh, hnv, hcap, rfl⟩ := crawlStep_dispatch_inv h
    have hws : s.work = u :: s.work.tail := eq_cons_of_head? hh
    have huw : u ∈ s.work := by rw [hws]; exact List.mem_cons_self _ _
    have hlen : s.work.length = s.work.tail.length + 1 := by rw [hws]; rfl
    have hfil : (R.dedup.filter (fun v => decide (v ∉ u :: s.visited))).length + 1 =
        (R.dedup.filter (fun v => decide (v ∉ s.visited))).length :=
      filter_cons_vis_length (List.nodup_dedup R)
        (List.mem_dedup.mpr (invR.work_R u huw)) hnv
    show (R.dedup.filter (fun v => decide (v ∉ u :: s.visited))).length * (lmaxOf cfg root R + 2)
        + (s.inflight ++ [u]).length * (lmaxOf cfg root R + 1) + s.work.tail.length
      < (R.dedup.filter (fun v => decide (v ∉ s.visited))).length * (lmaxOf cfg root R + 2)
        + s.inflight.length * (lmaxOf cfg root R + 1) + s.work.length
    rw [← hfil, List.length_append]
    have hone : ([u] : List String).length = 1 := rfl
    rw [hone]
    nlinarith [lmaxOf cfg root R, s.inflight.length]
  | receive u =>
    obtain ⟨hmem, hsel, hca | hca⟩ := crawlStep_receive_inv h
    · obtain ⟨hpn, rfl⟩ := hca
      have hlen : (s.inflight.erase u).length + 1 = s.inflight.length := by
        rw [List.length_erase_of_mem hmem]
        have : 1 ≤ s.inflight.length :=
          List.length_pos.mpr (List.ne_nil_of_mem hmem)
        omega
      show (R.dedup.filter (fun v => decide (v ∉ s.visited))).length * (lmaxOf cfg root R + 2)
          + (s.inflight.erase u).length * (lmaxOf cfg root R + 1) + s.work.length
        < (R.dedup.filter (fun v => decide (v ∉ s.visited))).length * (lmaxOf cfg root R + 2)
          + s.inflight.length * (lmaxOf cfg root R + 1) + s.work.length
      rw [← hlen]
      nlinarith [lmaxOf cfg root R]
    · obtain ⟨hps, rfl⟩ := hca
      have hlen : (s.inflight.erase u).length + 1 = s.inflight.length := by
        rw [List.length_erase_of_mem hmem]
        have : 1 ≤ s.inflight.length :=
          List.length_pos.mpr (List.ne_nil_of_mem hmem)
        omega
      have hk : (recvLinks cfg root s u).length ≤ lmaxOf cfg root R := by
        refine le_trans (List.length_filter_le _ _) ?_
        exact succs_length_le_lmaxOf (invR.vis_R u (invA.infl_vis u hmem))
      show (R.dedup.filter (fun v => decide (v ∉ s.visited))).length * (lmaxOf cfg root R + 2)
          + (s.inflight.erase u).length * (lmaxOf cfg root R + 1)
          + (s.work ++ recvLinks cfg root s u).length
        < (R.dedup.filter (fun v => decide (v ∉ s.visited))).length * (lmaxOf cfg root R + 2)
          + s.inflight.length * (lmaxOf cfg root R + 1) + s.work.length
      rw [← hlen, List.length_append]
      nlinarith [lmaxOf cfg root R]

/-- Any run is no longer than the measure of its start state. -/
theorem crawlRun_length_le {cfg : Config} {root : GoUrl} {R : List String}
    (hcl : ∀ u ∈ R, ∀ v ∈ succs cfg root u, v ∈ R) :
    ∀ {tr : List Ev} {s s' : St}, InvA cfg root s → InvR cfg root R s →
      crawlRun cfg root s tr = some s' → tr.length ≤ crawlMeasure cfg root R s := by
  intro tr
  induction tr with
  | nil =>
    intro s s' _ _ _
    exact Nat.zero_le _
  | cons e tr ih =>
    intro s s' invA invR h
    obtain ⟨s₁, hs, hr⟩ := crawlRun_cons_inv h
    have hlt := measure_step_lt invA invR hs
    have hle := ih (invA_step invA hs) (invR_step hcl invA invR hs) hr
    simp only [List.length_cons]
    omega

/-- With at least one fetcher, every non-final state has an enabled step. -/
theorem crawl_progress {cfg : Config} {root : GoUrl} {s : St}
    (inv : InvA cfg root s) (hn : 1 ≤ cfg.numFetchers) (hnf : ¬ Final s) :
    ∃ e s', crawlStep cfg root s e = some s' := by
  cases hw : s.work with
  | nil =>
    have hinf : s.inflight ≠ [] := fun hc => hnf ⟨hw, hc⟩
    obtain ⟨u, hu⟩ := List.exists_mem_of_ne_nil s.inflight hinf
    have hsel : selectOpen s = true := by simp [selectOpen, hw]
    have hex : ∃ s', crawlStep cfg root s (Ev.receive u) = some s' :=
      crawlStep_receive_some hu hsel
    obtain ⟨s', hs⟩ := hex
    exact ⟨Ev.receive u, s', hs⟩
  | cons w ws =>
    have hh : s.work.head? = some w := by rw [hw]; rfl
    by_cases hv : w ∈ s.visited
    · exact ⟨Ev.skip w, _, crawlStep_skip_some hh hv⟩
    · by_cases hcap : (s.inflight.length : Int) < cfg.numFetchers
      · exact ⟨Ev.dispatch w, _, crawlStep_dispatch_some hh hv hcap⟩
      · have hlen : 1 ≤ s.inflight.length := by
          have h1 : (1 : Int) ≤ s.inflight.length :=
            le_trans hn (not_lt.mp hcap)
          exact_mod_cast h1
        have hne : s.inflight ≠ [] := by
          intro hc
          rw [hc] at hlen
          simp at hlen
        obtain ⟨u, hu⟩ := List.exists_mem_of_ne_nil s.inflight hne
        have hsel : selectOpen s = true := by simp [selectOpen, hw, hv]
        have hex : ∃ s', crawlStep cfg root s (Ev.receive u) = some s' :=
          crawlStep_receive_some hu hsel
        obtain ⟨s', hs⟩ := hex
        exact ⟨Ev.receive u, s', hs⟩

/-! Final state characterization -/

theorem final_results_nodup {cfg : Config} {root : GoUrl} {s : St}
    (inv : InvA cfg root s) : (s.results.map Result.url).Nodup :=
  inv.nodup_ir.of_append_right

/-- In a final state, the result URLs are exactly the reachable URLs whose
string form the library can parse. -/
theorem final_mem_results {cfg : Config} {root : GoUrl} {s : St}
    (inv : InvA cfg root s) (hf : Final s) :
    ∀ u, u ∈ s.results.map Result.url ↔
      (Reaches cfg root u ∧ (cfg.lib.parse u).isSome = true) := by
  have hdir : ∀ {u}, Reaches cfg root u → (cfg.lib.parse u).isSome = true →
      u ∈ s.results.map Result.url := by
    intro u h
    induction h with
    | seed =>
      intro hps
      have haddr : cfg.addr ∈ s.visited := by
        rcases inv.seed_in with hc | hc
        · exact hc
        · rw [hf.1] at hc; cases hc
      rcases inv.vis_split _ haddr with hc | hc | hc
      · rw [hf.2] at hc; cases hc
      · exact hc
      · rw [hc] at hps; cases hps
    | @link u v hu hv ih =>
      intro hps
      have hu_ps : (cfg.lib.parse u).isSome = true := by
        unfold succs at hv
        cases hp : cfg.lib.parse u with
        | none => rw [hp] at hv; cases hv
        | some b => rfl
      have humem : u ∈ s.results.map Result.url := ih hu_ps
      obtain ⟨r, hr, hru⟩ := List.mem_map.mp humem
      have hvw : v ∈ s.visited ∨ v ∈ s.work := inv.processed r hr v (by rw [hru]; exact hv)
      have hvv : v ∈ s.visited := by
        rcases hvw with hc | hc
        · exact hc
        · rw [hf.1] at hc; cases hc
      rcases inv.vis_split _ hvv with hc | hc | hc
      · rw [hf.2] at hc; cases hc
      · exact hc
      · rw [hc] at hps; cases hps
  intro u
  constructor
  · intro hu
    obtain ⟨r, hr, hru⟩ := List.mem_map.mp hu
    exact ⟨hru ▸ inv.vis_reach r.url (inv.res_vis r hr), hru ▸ inv.res_parse r hr⟩
  · intro hc
    exact hdir hc.1 hc.2

/-! Finalized output -/

theorem sortLinks_url (r : Result) : (sortLinks r).url = r.url := rfl

theorem crawlReturn_map_url_perm (s : St) :
    List.Perm ((crawlReturn s).map Result.url) (s.results.map Result.url) := by
  unfold crawlReturn
  have hperm := (List.perm_insertionSort (fun a b : Result => a.url ≤ b.url)
    (s.results.map sortLinks)).map Result.url
  rw [List.map_map] at hperm
  have hcomp : (Result.url ∘ sortLinks) = Result.url := funext (fun r => rfl)
  rw [hcomp] at hperm
  exact hperm

theorem nodup_same_mem_perm {l₁ l₂ : List String} (h₁ : l₁.Nodup) (h₂ : l₂.Nodup)
    (hmem : ∀ u, u ∈ l₁ ↔ u ∈ l₂) : List.Perm l₁ l₂ := by
  refine List.perm_iff_count.mpr ?_
  intro a
  by_cases hm : a ∈ l₁
  · rw [List.count_eq_one_of_mem h₁ hm, List.count_eq_one_of_mem h₂ ((hmem a).mp hm)]
  · rw [List.count_eq_zero_of_not_mem hm,
      List.count_eq_zero_of_not_mem (fun hc => hm ((hmem a).mpr hc))]

theorem list_eq_map_of_det {cfg : Config} :
    ∀ {l : List Result}, (∀ r ∈ l, r = fetchRes cfg r.url) →
      l = (l.map Result.url).map (fetchRes cfg) := by
  intro l
  induction l with
  | nil => intro _; rfl
  | cons r rs ih =>
    intro h
    have hr := h r (List.mem_cons_self r rs)
    have hrs := ih (fun x hx => h x (List.mem_cons_of_mem _ hx))
    calc r :: rs = fetchRes cfg r.url :: rs := by rw [← hr]
      _ = fetchRes cfg r.url :: (rs.map Result.url).map (fetchRes cfg) := by rw [← hrs]
      _ = ((r :: rs).map Result.url).map (fetchRes cfg) := rfl

instance : IsTotal Result (fun a b => a.url ≤ b.url) :=
  ⟨fun a b => le_total a.url b.url⟩

instance : IsTrans Result (fun a b => a.url ≤ b.url) :=
  ⟨fun a b c hab hbc => le_trans hab hbc⟩

instance : IsAntisymm Result (fun a b => a.url < b.url) :=
  ⟨fun a b h1 h2 => absurd h1 (lt_asymm h2)⟩

theorem crawlReturn_sorted (s : St) :
    List.Sorted (fun a b : Result => a.url ≤ b.url) (crawlReturn s) :=
  List.sorted_insertionSort _ _

theorem crawlReturn_pairwise_lt {cfg : Config} {root : GoUrl} {s : St}
    (inv : InvA cfg root s) :
    List.Pairwise (fun a b : Result => a.url < b.url) (crawlReturn s) := by
  have hnod : ((crawlReturn s).map Result.url).Nodup :=
    (crawlReturn_map_url_perm s).symm.nodup (final_results_nodup inv)
  have hne : List.Pairwise (fun a b : Result => a.url ≠ b.url) (crawlReturn s) :=
    List.pairwise_map.mp hnod
  exact ((crawlReturn_sorted s).and hne).imp
    (fun hab => lt_of_le_of_ne hab.1 hab.2)

/-- The finalized output of any two completed crawls of the same
configuration coincide. -/
theorem crawlReturn_eq_of_final {cfg : Config} {root : GoUrl} {s₁ s₂ : St}
    (inv₁ : InvA cfg root s₁) (hf₁ : Final s₁)
    (inv₂ : InvA cfg root s₂) (hf₂ : Final s₂) :
    crawlReturn s₁ = crawlReturn s₂ := by
  have hmm : ∀ u, u ∈ s₁.results.map Result.url ↔ u ∈ s₂.results.map Result.url := by
    intro u
    rw [final_mem_results inv₁ hf₁ u, final_mem_results inv₂ hf₂ u]
  have hpermu : List.Perm (s₁.results.map Result.url) (s₂.results.map Result.url) :=
    nodup_same_mem_perm (final_results_nodup inv₁) (final_results_nodup inv₂) hmm
  have hpermr : List.Perm s₁.results s₂.results := by
    rw [list_eq_map_of_det inv₁.res_det, list_eq_map_of_det inv₂.res_det]
    exact hpermu.map (fetchRes cfg)
  have hret : List.Perm (crawlReturn s₁) (crawlReturn s₂) := by
    unfold crawlReturn
    refine ((List.perm_insertionSort _ _).trans ?_).trans
      (List.perm_insertionSort _ _).symm
    exact hpermr.map sortLinks
  exact List.eq_of_perm_of_sorted hret (crawlReturn_pairwise_lt inv₁)
    (crawlReturn_pairwise_lt inv₂)

/-! Dispatch counting -/

theorem count_dispatch_zero_of_visited {cfg : Config} {root : GoUrl} {u : String} :
    ∀ {tr : List Ev} {s s' : St}, crawlRun cfg root s tr = some s' →
      u ∈ s.visited → List.count (Ev.dispatch u) tr = 0 := by
  intro tr
  induction tr with
  | nil => intro s s' _ _; rfl
  | cons e tr ih =>
    intro s s' h hv
    obtain ⟨s₁, hs, hr⟩ := crawlRun_cons_inv h
    have hv₁ : u ∈ s₁.visited := visited_mono_step hs u hv
    have hne : ¬ (e = Ev.dispatch u) := by
      intro hc
      subst hc
      exact (crawlStep_dispatch_inv hs).2.1 hv
    simp [List.count_cons, ih hr hv₁, hne]

theorem count_dispatch_le_one {cfg : Config} {root : GoUrl} {u : String} :
    ∀ {tr : List Ev} {s s' : St}, crawlRun cfg root s tr = some s' →
      List.count (Ev.dispatch u) tr ≤ 1 := by
  intro tr
  induction tr with
  | nil => intro s s' _; simp
  | cons e tr ih =>
    intro s s' h
    obtain ⟨s₁, hs, hr⟩ := crawlRun_cons_inv h
    by_cases he : e = Ev.dispatch u
    · subst he
      have hv₁ : u ∈ s₁.visited := by
        obtain ⟨_, _, _, hse⟩ := crawlStep_dispatch_inv hs
        rw [hse]
        exact List.mem_cons_self _ _
      have h0 := count_dispatch_zero_of_visited hr hv₁
      simp [List.count_cons, h0]
    · have hle := ih hr
      simp only [List.count_cons]
      have hbe : ((e == Ev.dispatch u) : Bool) = false := by
        simp [he]
      rw [hbe]
      simpa using hle

/-! Frontier entry accounting -/

theorem enqueue_conservation {cfg : Config} {root : GoUrl} {u : String} :
    ∀ {tr : List Ev} {s s' : St}, crawlRun cfg root s tr = some s' →
      s.work.count u + enqueueCount cfg root s tr u =
        s'.work.count u + List.count (Ev.dispatch u) tr +
          List.count (Ev.skip u) tr := by
  intro tr
  induction tr with
  | nil =>
    intro s s' h
    rw [crawlRun_nil_inv h]
    simp [enqueueCount]
  | cons e tr ih =>
    intro s s' h
    obtain ⟨s₁, hs, hr⟩ := crawlRun_cons_inv h
    have hrec := ih hr
    cases e with
    | skip v =>
      obtain ⟨hh, hv, hse⟩ := crawlStep_skip_inv hs
      have hws : s.work = v :: s.work.tail := eq_cons_of_head? hh
      have henq : enqueueCount cfg root s (Ev.skip v :: tr) u =
          enqueueCount cfg root s₁ tr u := by
        simp [enqueueCount, hs]
      have hw₁ : s₁.work = s.work.tail := by rw [hse]
      have hcd : List.count (Ev.dispatch u) (Ev.skip v :: tr) =
          List.count (Ev.dispatch u) tr := by
        simp [List.count_cons]
      have hcs : List.count (Ev.skip u) (Ev.skip v :: tr) =
          List.count (Ev.skip u) tr + (if v = u then 1 else 0) := by
        by_cases hvu : v = u <;> simp [List.count_cons, hvu]
      have hwc : s.work.count u =
          s.work.tail.count u + (if v = u then 1 else 0) := by
        conv_lhs => rw [hws]
        by_cases hvu : v = u <;> simp [List.count_cons, hvu]
      rw [henq, hcd, hcs, hwc]
      rw [hw₁] at hrec
      omega
    | dispatch v =>
      obtain ⟨hh, hnv, hcap, hse⟩ := crawlStep_dispatch_inv hs
      have hws : s.work = v :: s.work.tail := eq_cons_of_head? hh
      have henq : enqueueCount cfg root s (Ev.dispatch v :: tr) u =
          enqueueCount cfg root s₁ tr u := by
        simp [enqueueCount, hs]
      have hw₁ : s₁.work = s.work.tail := by rw [hse]
      have hcd : List.count (Ev.dispatch u) (Ev.dispatch v :: tr) =
          List.count (Ev.dispatch u) tr + (if v = u then 1 else 0) := by
        by_cases hvu : v = u <;> simp [List.count_cons, hvu]
      have hcs : List.count (Ev.skip u) (Ev.dispatch v :: tr) =
          List.count (Ev.skip u) tr := by
        simp [List.count_cons]
      have hwc : s.work.count u =
          s.work.tail.count u + (if v = u then 1 else 0) := by
        conv_lhs => rw [hws]
        by_cases hvu : v = u <;> simp [List.count_cons, hvu]
      rw [henq, hcd, hcs, hwc]
      rw [hw₁] at hrec
      omega
    | receive v =>
      obtain ⟨hmem, hsel, hca | hca⟩ := crawlStep_receive_inv hs
      · obtain ⟨hpn, hse⟩ := hca
        have henq : enqueueCount cfg root s (Ev.receive v :: tr) u =
            enqueueCount cfg root s₁ tr u := by
          simp [enqueueCount, hs, hmem, hsel, hpn]
        have hw₁ : s₁.work = s.work := by rw [hse]
        have hcd : List.count (Ev.dispatch u) (Ev.receive v :: tr) =
            List.count (Ev.dispatch u) tr := by
          simp [List.count_cons]
        have hcs : List.count (Ev.skip u) (Ev.receive v :: tr) =
            List.count (Ev.skip u) tr := by
          simp [List.count_cons]
        rw [henq, hcd, hcs]
        rw [hw₁] at hrec
        omega
      · obtain ⟨hps, hse⟩ := hca
        obtain ⟨b, hpb⟩ := Option.isSome_iff_exists.mp hps
        have henq : enqueueCount cfg root s (Ev.receive v :: tr) u =
            (recvLinks cfg root s v).count u + enqueueCount cfg root s₁ tr u := by
          simp [enqueueCount, hs, hmem, hsel, hpb]
        have hw₁ : s₁.work = s.work ++ recvLinks cfg root s v := by rw [hse]
        have hwc : s₁.work.count u =
            s.work.count u + (recvLinks cfg root s v).count u := by
          rw [hw₁, List.count_append]
        have hcd : List.count (Ev.dispatch u) (Ev.receive v :: tr) =
            List.count (Ev.dispatch u) tr := by
          simp [List.count_cons]
        have hcs : List.count (Ev.skip u) (Ev.receive v :: tr) =
            List.count (Ev.skip u) tr := by
          simp [List.count_cons]
        rw [henq, hcd, hcs]
        rw [hwc] at hrec
        omega

/-! Claim theorems -/

theorem reaches_R_parse {cfg : Config} {root : GoUrl} {R : List String}
    (hroot : cfg.lib.parse cfg.addr = some root) (hRa : cfg.addr ∈ R)
    (hRcl : ∀ u ∈ R, ∀ v ∈ succs cfg root u, v ∈ R)
    (hparse : ∀ u ∈ R, ∀ v ∈ succs cfg root u, (cfg.lib.parse v).isSome = true) :
    ∀ {u : String}, Reaches cfg root u →
      u ∈ R ∧ (cfg.lib.parse u).isSome = true := by
  intro u h
  induction h with
  | seed => exact ⟨hRa, by rw [hroot]; rfl⟩
  | @link u v hu hv ih => exact ⟨hRcl u ih.1 v hv, hparse u ih.1 v hv⟩

/-- Worst-case number of loop iterations of a crawl over the closed URL
superset `R`. -/
def crawlBound (cfg : Config) (root : GoUrl) (R : List String) : Nat :=
  crawlMeasure cfg root R (crawlInit cfg)

/-- C1 (amended).  For a parseable seed, at least one fetcher, and a link
graph whose same-host reachable set is contained in a finite closed list
`R` on which the library re-parses every discovered link string: every
execution of the `Crawl` loop takes at most `crawlBound` steps, every
non-final state can take another step (so every maximal execution ends in
the done state and `Crawl` returns), and the URL set of the returned
results is exactly the set of URLs reachable from the seed via resolved,
normalized, same-host links, each URL string appearing exactly once.  The
exactly-once guarantee is by string identity: discovered links enter in
normalized form but the seed participates in its raw form, so a seed that
is not its own normalization key yields a raw-seed entry alongside (not
merged with) its normalized twin. -/
theorem crawl_terminates_and_output_reachable
    (cfg : Config) (root : GoUrl) (R : List String)
    (hroot : cfg.lib.parse cfg.addr = some root)
    (hn : 1 ≤ cfg.numFetchers)
    (hRa : cfg.addr ∈ R)
    (hRcl : ∀ u ∈ R, ∀ v ∈ succs cfg root u, v ∈ R)
    (hparse : ∀ u ∈ R, ∀ v ∈ succs cfg root u, (cfg.lib.parse v).isSome = true) :
    (∀ tr s', crawlRun cfg root (crawlInit cfg) tr = some s' →
      tr.length ≤ crawlBound cfg root R) ∧
    (∀ tr s', crawlRun cfg root (crawlInit cfg) tr = some s' → ¬ Final s' →
      ∃ e s2, crawlStep cfg root s' e = some s2) ∧
    (∀ tr s', crawlRun cfg root (crawlInit cfg) tr = some s' → Final s' →
      ((crawlReturn s').map Result.url).Nodup ∧
      (∀ u, u ∈ (crawlReturn s').map Result.url ↔ Reaches cfg root u)) := by
  refine ⟨?_, ?_, ?_⟩
  · intro tr s' h
    exact crawlRun_length_le hRcl (invA_init cfg root) (invR_init hRa) h
  · intro tr s' h hnf
    exact crawl_progress (invA_run_init h) hn hnf
  · intro tr s' h hf
    have inv := invA_run_init h
    refine ⟨(crawlReturn_map_url_perm s').symm.nodup (final_results_nodup inv), ?_⟩
    intro u
    rw [(crawlReturn_map_url_perm s').mem_iff, final_mem_results inv hf u]
    constructor
    · intro hc
      exact hc.1
    · intro hc
      exact ⟨hc, (reaches_R_parse hroot hRa hRcl hparse hc).2⟩

/-- Final state of the single-fetcher crawl of `cfgA`. -/
def stAfin : St :=
  { work := [],
    visited := ["https://h/c", "https://h/b", "https://h/a", "https://h/"],
    inflight := [],
    results :=
      [{ url := "https://h/", links := ["a", "b"], err := none },
       { url := "https://h/a", links := ["c", "c"], err := none },
       { url := "https://h/b", links := [], err := some "boom" },
       { url := "https://h/c", links := ["https://x/", "b"], err := none }] }

theorem crawl_terminates_and_output_reachable_witness :
    (cfgA.lib.parse cfgA.addr = some rootA) ∧ (1 ≤ cfgA.numFetchers) ∧
    (cfgA.addr ∈ listRA) ∧
    (∀ u ∈ listRA, ∀ v ∈ succs cfgA rootA u, v ∈ listRA) ∧
    (∀ u ∈ listRA, ∀ v ∈ succs cfgA rootA u, (cfgA.lib.parse v).isSome = true) ∧
    (crawlRun cfgA rootA (crawlInit cfgA) traceA = some stAfin) ∧ Final stAfin ∧
    traceA.length ≤ crawlBound cfgA rootA listRA ∧
    ((crawlReturn stAfin).map Result.url).Nodup ∧
    ("https://h/a" ∈ (crawlReturn stAfin).map Result.url ↔
      Reaches cfgA rootA "https://h/a") := by
  refine ⟨by decide, by decide, by decide, by decide, by decide, by decide,
    by decide, ?_, ?_, ?_⟩
  · exact (crawl_terminates_and_output_reachable cfgA rootA listRA (by decide)
      (by decide) (by decide) (by decide) (by decide)).1 traceA stAfin (by decide)
  · exact ((crawl_terminates_and_output_reachable cfgA rootA listRA (by decide)
      (by decide) (by decide) (by decide) (by decide)).2.2 traceA stAfin
      (by decide) (by decide)).1
  · exact ((crawl_terminates_and_output_reachable cfgA rootA listRA (by decide)
      (by decide) (by decide) (by decide) (by decide)).2.2 traceA stAfin
      (by decide) (by decide)).2 "https://h/a"

/-- Final state of the single-fetcher crawl of `cfgB`. -/
def sBfin : St :=
  { work := [], visited := ["https://h/a", "https://h/a?q=1"], inflight := [],
    results :=
      [{ url := "https://h/a?q=1", links := ["a"], err := none },
       { url := "https://h/a", links := [], err := none }] }

/-- C1 counterexample (claim as stated).  The seed of `cfgB` carries a
query; its page links to its own normalized form, which is then crawled as
a second, distinct entry.  The crawl completes within the scope of the
claim (finite closed graph, one fetcher), yet the normalized dedup keys of
the returned URLs are not pairwise distinct: the same URL, under
normalized-URL identity, appears twice in the results. -/
theorem seed_normalization_counterexample :
    (1 ≤ cfgB.numFetchers) ∧
    cfgB.lib.parse cfgB.addr = some rootB ∧
    (listRB.all (fun u =>
      (succs cfgB rootB u).all (fun v => decide (v ∈ listRB))) = true) ∧
    (crawlRun cfgB rootB (crawlInit cfgB) traceB = some sBfin) ∧ Final sBfin ∧
    (sBfin.results.map (fun r => normKey cfgB.lib r.url) =
      ["https://h/a", "https://h/a"]) ∧
    ¬ ((crawlReturn sBfin).map (fun r => normKey cfgB.lib r.url)).Nodup := by
  refine ⟨by decide, by decide, by decide, by decide, by decide, by decide, ?_⟩
  intro hnod
  have hmm : (crawlReturn sBfin).map (fun r => normKey cfgB.lib r.url) =
      ((crawlReturn sBfin).map Result.url).map (normKey cfgB.lib) := by
    rw [List.map_map]
    rfl
  rw [hmm] at hnod
  have hperm := (crawlReturn_map_url_perm sBfin).map (normKey cfgB.lib)
  have hnod2 := hperm.nodup hnod
  have hdec : ¬ ((sBfin.results.map Result.url).map (normKey cfgB.lib)).Nodup := by
    decide
  exact hdec hnod2

/-- C2.  In any run of the `Crawl` loop, each URL is handed to the fetcher
pool at most once, hence the fetch collaborator is invoked with any given
URL at most once per crawl (each dispatched URL is received by exactly one
worker, whose loop calls `c.fetch` once per received URL). -/
theorem page_fetcher_invoked_at_most_once (cfg : Config) (root : GoUrl)
    (tr : List Ev) (s' : St)
    (h : crawlRun cfg root (crawlInit cfg) tr = some s') (u : String) :
    fetchCalls tr u ≤ 1 :=
  count_dispatch_le_one h

theorem page_fetcher_invoked_at_most_once_witness :
    (crawlRun cfgA rootA (crawlInit cfgA) traceA = some stAfin) ∧
    fetchCalls traceA "https://h/c" ≤ 1 :=
  ⟨by decide, page_fetcher_invoked_at_most_once cfgA rootA traceA stAfin
    (by decide) "https://h/c"⟩

/-- C3.  In every state of the orchestrator loop: when the frontier is
empty, every enabled step is a result reception and any in-flight result
can be received (the send case is disabled via the nil channel); when the
frontier head is an unvisited URL, the select offers dispatch and
reception concurrently — any in-flight result can still be received, and
the dispatch fires as soon as a worker is free.  In particular the loop is
never committed to sending while unable to accept an arriving result. -/
theorem select_offers_dispatch_and_receive (cfg : Config) (root : GoUrl)
    (s : St) :
    (s.work = [] →
      (∀ e s', crawlStep cfg root s e = some s' → ∃ u, e = Ev.receive u) ∧
      (∀ u ∈ s.inflight, ∃ s', crawlStep cfg root s (Ev.receive u) = some s')) ∧
    (∀ w ws, s.work = w :: ws → w ∉ s.visited →
      (∀ u ∈ s.inflight, ∃ s', crawlStep cfg root s (Ev.receive u) = some s') ∧
      ((s.inflight.length : Int) < cfg.numFetchers →
        ∃ s', crawlStep cfg root s (Ev.dispatch w) = some s')) := by
  constructor
  · intro hw
    constructor
    · intro e s' hst
      cases e with
      | skip u =>
        obtain ⟨hh, _, _⟩ := crawlStep_skip_inv hst
        rw [hw] at hh
        cases hh
      | dispatch u =>
        obtain ⟨hh, _⟩ := crawlStep_dispatch_inv hst
        rw [hw] at hh
        cases hh
      | receive u => exact ⟨u, rfl⟩
    · intro u hu
      have hsel : selectOpen s = true := by simp [selectOpen, hw]
      exact crawlStep_receive_some hu hsel
  · intro w ws hw hnv
    constructor
    · intro u hu
      have hsel : selectOpen s = true := by simp [selectOpen, hw, hnv]
      exact crawlStep_receive_some hu hsel
    · intro hcap
      have hh : s.work.head? = some w := by rw [hw]; rfl
      exact ⟨_, crawlStep_dispatch_some hh hnv hcap⟩

/-- Mid-crawl state of `cfgA`: frontier drained, one fetch in flight. -/
def stMid : St :=
  { work := [], visited := ["https://h/"], inflight := ["https://h/"],
    results := [] }

theorem select_offers_dispatch_and_receive_witness :
    stMid.work = [] ∧ "https://h/" ∈ stMid.inflight ∧
    (∃ s', crawlStep cfgA rootA stMid (Ev.receive "https://h/") = some s') :=
  ⟨rfl, by decide,
    ((select_offers_dispatch_and_receive cfgA rootA stMid).1 rfl).2
      "https://h/" (by decide)⟩

/-- C4 counterexample (claim as stated).  Page `https://h/a` of `cfgA`
lists the same link twice; because the visited set is only read, not
written, while a page is processed, the URL `https://h/c` is appended to
the frontier twice in this completed single-fetcher run. -/
theorem frontier_entry_twice_counterexample :
    runCompletes cfgA rootA traceA = true ∧
    totalEnqueued cfgA rootA traceA "https://h/c" = 2 :=
  ⟨by decide, by decide⟩

/-- C4 (amended).  A URL may enter the frontier more than once: the
visited set is checked at enqueue time but only marked at dispatch
(dequeue) time.  Nevertheless, over any completed crawl the frontier
entries of each URL are exactly its dispatches plus its dequeue-time
discards, and each URL is dispatched at most once — supernumerary entries
are discarded by the dequeue-time visited check, never fetched. -/
theorem frontier_dedup_at_dispatch (cfg : Config) (root : GoUrl)
    (tr : List Ev) (s' : St)
    (h : crawlRun cfg root (crawlInit cfg) tr = some s') (hf : Final s')
    (u : String) :
    totalEnqueued cfg root tr u =
      List.count (Ev.dispatch u) tr + List.count (Ev.skip u) tr ∧
    List.count (Ev.dispatch u) tr ≤ 1 := by
  constructor
  · have hc := enqueue_conservation (u := u) h
    have hz : s'.work.count u = 0 := by rw [hf.1]; rfl
    unfold totalEnqueued
    omega
  · exact count_dispatch_le_one h

theorem frontier_dedup_at_dispatch_witness :
    (crawlRun cfgA rootA (crawlInit cfgA) traceA = some stAfin) ∧
    Final stAfin ∧
    (totalEnqueued cfgA rootA traceA "https://h/c" =
      List.count (Ev.dispatch "https://h/c") traceA +
        List.count (Ev.skip "https://h/c") traceA ∧
     List.count (Ev.dispatch "https://h/c") traceA ≤ 1) :=
  ⟨by decide, by decide,
    frontier_dedup_at_dispatch cfgA rootA traceA stAfin (by decide) (by decide)
      "https://h/c"⟩

/-- State of the `cfgC` crawl just before the result for the
non-re-parseable URL is received. -/
def stCpre : St :=
  { work := [], visited := ["https://h/w", "https://h/"],
    inflight := ["https://h/w"],
    results := [{ url := "https://h/", links := ["w"], err := none }] }

/-- State of the `cfgC` crawl just after that receive step. -/
def stCfin : St :=
  { work := [], visited := ["https://h/w", "https://h/"], inflight := [],
    results := [{ url := "https://h/", links := ["w"], err := none }] }

/-- C5 counterexample (claim as stated).  In `cfgC` the discovered link
serializes to `https://h/w`, which the library does not re-parse.  The
page is dispatched and its result received, the `break` path fires — and
the page result is dropped: it does not appear in the final output, while
the claim says it is retained. -/
theorem unparseable_page_result_dropped_counterexample :
    (crawlRun cfgC rootC (crawlInit cfgC) traceC = some stCfin) ∧
    Final stCfin ∧
    Ev.dispatch "https://h/w" ∈ traceC ∧
    Ev.receive "https://h/w" ∈ traceC ∧
    cfgC.lib.parse "https://h/w" = none ∧
    "https://h/w" ∉ stCfin.results.map Result.url ∧
    "https://h/w" ∉ (crawlReturn stCfin).map Result.url := by
  refine ⟨by decide, by decide, by decide, by decide, by decide, by decide, ?_⟩
  intro hmem
  have hmem2 : "https://h/w" ∈ stCfin.results.map Result.url :=
    (crawlReturn_map_url_perm stCfin).subset hmem
  exact (by decide : "https://h/w" ∉ stCfin.results.map Result.url) hmem2

/-- C5 (amended).  When the orchestrator receives a page result whose own
URL fails to parse, it skips processing that page links AND drops the
page result itself: the `break` in the receive case exits the select
before the append, so neither the work queue nor the results change, and
the page URL never appears in the output of any run. -/
theorem unparseable_page_links_skipped_and_result_dropped
    (cfg : Config) (root : GoUrl) :
    (∀ s s' u, cfg.lib.parse u = none →
      crawlStep cfg root s (Ev.receive u) = some s' →
      s'.results = s.results ∧ s'.work = s.work ∧ s'.visited = s.visited ∧
      s'.inflight = s.inflight.erase u) ∧
    (∀ tr s', crawlRun cfg root (crawlInit cfg) tr = some s' →
      ∀ u, cfg.lib.parse u = none → u ∉ s'.results.map Result.url) := by
  constructor
  · intro s s' u hp hst
    obtain ⟨hmem, hsel, hca | hca⟩ := crawlStep_receive_inv hst
    · obtain ⟨_, hse⟩ := hca
      rw [hse]
      exact ⟨rfl, rfl, rfl, rfl⟩
    · obtain ⟨hps, _⟩ := hca
      rw [hp] at hps
      cases hps
  · intro tr s' h u hp hmem
    obtain ⟨r, hr, hru⟩ := List.mem_map.mp hmem
    have hps := (invA_run_init h).res_parse r hr
    rw [hru, hp] at hps
    cases hps

theorem unparseable_page_links_skipped_witness :
    cfgC.lib.parse "https://h/w" = none ∧
    (crawlStep cfgC rootC stCpre (Ev.receive "https://h/w") = some stCfin) ∧
    (stCfin.results = stCpre.results ∧ stCfin.work = stCpre.work ∧
      stCfin.visited = stCpre.visited ∧
      stCfin.inflight = stCpre.inflight.erase "https://h/w") ∧
    (crawlRun cfgC rootC (crawlInit cfgC) traceC = some stCfin) ∧
    "https://h/w" ∉ stCfin.results.map Result.url :=
  ⟨by decide, by decide,
    (unparseable_page_links_skipped_and_result_dropped cfgC rootC).1 stCpre
      stCfin "https://h/w" (by decide) (by decide),
    by decide,
    (unparseable_page_links_skipped_and_result_dropped cfgC rootC).2 traceC
      stCfin (by decide) "https://h/w" (by decide)⟩

/-- C6.  In every reachable state of any crawl, every visited URL — and
hence every dispatched URL and every URL field of a result entry, since
results and in-flight pages are all visited — is host-contained: it is
either the seed itself, or the serialization of a resolved, cleared URL
record whose host equals the root host (`link.Host == root.Host` is
checked before enqueueing).  URLs on other hosts can therefore occur only
as raw strings inside some page link list, never as fetched entries. -/
theorem dispatched_urls_host_contained (cfg : Config) (root : GoUrl)
    (hroot : cfg.lib.parse cfg.addr = some root)
    (tr : List Ev) (s' : St)
    (h : crawlRun cfg root (crawlInit cfg) tr = some s') :
    (∀ u ∈ s'.visited, HostOk cfg root u) ∧
    (∀ u ∈ s'.inflight, HostOk cfg root u) ∧
    (∀ r ∈ s'.results, HostOk cfg root r.url) := by
  have invH := invH_run_init h
  have invA := invA_run_init h
  exact ⟨invH.vis_h, fun u hu => invH.vis_h u (invA.infl_vis u hu),
    fun r hr => invH.vis_h r.url (invA.res_vis r hr)⟩

theorem dispatched_urls_host_contained_witness :
    (cfgA.lib.parse cfgA.addr = some rootA) ∧
    (crawlRun cfgA rootA (crawlInit cfgA) traceA = some stAfin) ∧
    ("https://h/a" ∈ stAfin.visited) ∧
    HostOk cfgA rootA "https://h/a" :=
  ⟨by decide, by decide, by decide,
    (dispatched_urls_host_contained cfgA rootA (by decide) traceA stAfin
      (by decide)).1 "https://h/a" (by decide)⟩

/-- C7.  The only crawl-level error is the seed parse failure: the
reported outcome is an error precisely when the seed does not parse (and
then no run exists and no results are produced).  For a completed crawl,
every returned entry carries exactly the error and (sorted) link list its
own fetch produced — so a fetch failure is recorded on that page entry
while sibling entries are the untouched page results of their own URLs —
every reachable, parseable URL still appears in the output, and, under the
fetcher contract that an erring fetch returns a nil link list, an erring
page contributes no successors to the crawl. -/
theorem seed_error_iff_and_page_failures_contained (cfg : Config) :
    (∀ tr out, crawlResult cfg tr = some out →
      ((∃ e, out = Except.error e) ↔ cfg.lib.parse cfg.addr = none)) ∧
    (∀ root, cfg.lib.parse cfg.addr = some root →
      ∀ tr s', crawlRun cfg root (crawlInit cfg) tr = some s' → Final s' →
        (∀ r ∈ crawlReturn s', r.err = (cfg.fetch r.url).2 ∧
          r.links = List.insertionSort (fun a b => a ≤ b) (cfg.fetch r.url).1) ∧
        (∀ u, Reaches cfg root u → (cfg.lib.parse u).isSome = true →
          u ∈ (crawlReturn s').map Result.url)) ∧
    (∀ root u, (∀ v, (cfg.fetch v).2 ≠ none → (cfg.fetch v).1 = []) →
      (cfg.fetch u).2 ≠ none → succs cfg root u = []) := by
  refine ⟨?_, ?_, ?_⟩
  · intro tr out h
    unfold crawlResult at h
    split at h
    · rename_i hp
      simp only [Option.some.injEq] at h
      subst h
      constructor
      · intro _
        exact hp
      · intro _
        exact ⟨_, rfl⟩
    · rename_i root2 hp
      split at h
      · rename_i s hr
        split at h
        · simp only [Option.some.injEq] at h
          subst h
          constructor
          · intro hc
            obtain ⟨e, he⟩ := hc
            cases he
          · intro hc
            rw [hp] at hc
            cases hc
        · cases h
      · cases h
  · intro root hroot tr s' h hf
    have inv := invA_run_init h
    constructor
    · intro r hr
      have hr2 : r ∈ s'.results.map sortLinks :=
        (List.perm_insertionSort _ _).subset hr
      obtain ⟨r₀, hr₀, hre⟩ := List.mem_map.mp hr2
      have hdet := inv.res_det r₀ hr₀
      subst hre
      constructor
      · show (sortLinks r₀).err = (cfg.fetch (sortLinks r₀).url).2
        conv_lhs => rw [hdet]
        rfl
      · show (sortLinks r₀).links =
          List.insertionSort (fun a b => a ≤ b) (cfg.fetch (sortLinks r₀).url).1
        conv_lhs => rw [hdet]
        rfl
    · intro u hre hps
      rw [(crawlReturn_map_url_perm s').mem_iff, final_mem_results inv hf u]
      exact ⟨hre, hps⟩
  · intro root u hcontract herr
    have hlk : (cfg.fetch u).1 = [] := hcontract u herr
    unfold succs
    split
    · rfl
    · rw [hlk]
      rfl

/-- The fetcher contract of `fetchA` (as for fetchHTTP and the test stub):
an erring fetch reports no links. -/
theorem fetchA_err_no_links : ∀ v, (fetchA v).2 ≠ none → (fetchA v).1 = [] := by
  intro v hv
  unfold fetchA at hv ⊢
  split_ifs at hv ⊢ <;> simp_all

theorem seed_error_iff_and_page_failures_contained_witness :
    (crawlResult cfgA traceA = some (Except.ok (crawlReturn stAfin))) ∧
    ((∃ e, (Except.ok (crawlReturn stAfin) : Except String (List Result)) =
      Except.error e) ↔ cfgA.lib.parse cfgA.addr = none) ∧
    (crawlRun cfgA rootA (crawlInit cfgA) traceA = some stAfin) ∧ Final stAfin ∧
    (∀ r ∈ crawlReturn stAfin, r.err = (cfgA.fetch r.url).2 ∧
      r.links = List.insertionSort (fun a b => a ≤ b) (cfgA.fetch r.url).1) ∧
    ((cfgA.fetch "https://h/b").2 ≠ none) ∧
    succs cfgA rootA "https://h/b" = [] := by
  have hres : crawlResult cfgA traceA = some (Except.ok (crawlReturn stAfin)) := rfl
  refine ⟨hres,
    (seed_error_iff_and_page_failures_contained cfgA).1 traceA _ hres,
    by decide, by decide, ?_, by decide, ?_⟩
  · exact ((seed_error_iff_and_page_failures_contained cfgA).2.1 rootA (by decide)
      traceA stAfin (by decide) (by decide)).1
  · exact (seed_error_iff_and_page_failures_contained cfgA).2.2 rootA
      "https://h/b" fetchA_err_no_links (by decide)

/-- C8.  For a fixed configuration (a deterministic fetch collaborator and
URL library), any two completed runs of the `Crawl` loop — i.e. any two
orders in which page results can arrive at the orchestrator — produce the
identical finalized output: the entry list is sorted by URL, each entry
link list is sorted ascending, and the output is a function of the link
graph alone. -/
theorem output_independent_of_arrival_order (cfg : Config) (root : GoUrl)
    (tr₁ tr₂ : List Ev) (s₁ s₂ : St)
    (h₁ : crawlRun cfg root (crawlInit cfg) tr₁ = some s₁) (hf₁ : Final s₁)
    (h₂ : crawlRun cfg root (crawlInit cfg) tr₂ = some s₂) (hf₂ : Final s₂) :
    crawlReturn s₁ = crawlReturn s₂ ∧
    List.Sorted (fun a b : Result => a.url ≤ b.url) (crawlReturn s₁) ∧
    (∀ r ∈ crawlReturn s₁, List.Sorted (fun a b : String => a ≤ b) r.links) := by
  refine ⟨crawlReturn_eq_of_final (invA_run_init h₁) hf₁ (invA_run_init h₂) hf₂,
    crawlReturn_sorted s₁, ?_⟩
  intro r hr
  have hr2 : r ∈ s₁.results.map sortLinks :=
    (List.perm_insertionSort _ _).subset hr
  obtain ⟨r₀, hr₀, hre⟩ := List.mem_map.mp hr2
  subst hre
  exact List.sorted_insertionSort _ _

/-- Two-fetcher configuration over the `cfgA` site. -/
def cfgA2 : Config :=
  { lib := libA, fetch := fetchA, numFetchers := 2, addr := "https://h/" }

/-- Two-fetcher schedule in which page a completes before page b. -/
def traceD1 : List Ev :=
  [Ev.dispatch "https://h/", Ev.receive "https://h/",
   Ev.dispatch "https://h/a", Ev.dispatch "https://h/b",
   Ev.receive "https://h/a", Ev.receive "https://h/b",
   Ev.dispatch "https://h/c", Ev.skip "https://h/c", Ev.receive "https://h/c"]

/-- Two-fetcher schedule in which page b completes before page a. -/
def traceD2 : List Ev :=
  [Ev.dispatch "https://h/", Ev.receive "https://h/",
   Ev.dispatch "https://h/a", Ev.dispatch "https://h/b",
   Ev.receive "https://h/b", Ev.receive "https://h/a",
   Ev.dispatch "https://h/c", Ev.skip "https://h/c", Ev.receive "https://h/c"]

/-- Final state of the `traceD2` schedule: same pages, received in a
different order. -/
def stD2 : St :=
  { work := [],
    visited := ["https://h/c", "https://h/b", "https://h/a", "https://h/"],
    inflight := [],
    results :=
      [{ url := "https://h/", links := ["a", "b"], err := none },
       { url := "https://h/b", links := [], err := some "boom" },
       { url := "https://h/a", links := ["c", "c"], err := none },
       { url := "https://h/c", links := ["https://x/", "b"], err := none }] }

theorem output_independent_of_arrival_order_witness :
    (crawlRun cfgA2 rootA (crawlInit cfgA2) traceD1 = some stAfin) ∧
    Final stAfin ∧
    (crawlRun cfgA2 rootA (crawlInit cfgA2) traceD2 = some stD2) ∧
    Final stD2 ∧ stAfin ≠ stD2 ∧
    crawlReturn stAfin = crawlReturn stD2 :=
  ⟨by decide, by decide, by decide, by decide, by decide,
    (output_independent_of_arrival_order cfgA2 rootA traceD1 traceD2 stAfin stD2
      (by decide) (by decide) (by decide) (by decide)).1⟩

/-- Transport stub returning a 201 Created response. -/
def get201 : String → Except String HttpResponse := fun _ =>
  Except.ok { statusCode := 201, body := [], bodyErr := none }

/-- C9 counterexample (claim as stated).  A 201 response is a success
(2xx) status, yet `getHTTP` returns an error for it: the code tests
`res.StatusCode != 200`, not non-2xx. -/
theorem getHTTP_status_not_2xx_counterexample :
    (get201 "u" = Except.ok { statusCode := 201, body := [], bodyErr := none }) ∧
    is2xx 201 ∧
    (getHTTP get201 "u").2.isSome = true :=
  ⟨rfl, by decide, by decide⟩

/-- C9 (amended).  `getHTTP` returns an error precisely when the GET
transport fails, or the response status code differs from 200 (not merely
from the 2xx class), or reading the body fails; for a 200 response whose
body reads cleanly it returns the body bytes with no error. -/
theorem getHTTP_error_iff_not_200 (get : String → Except String HttpResponse)
    (addr : String) :
    ((getHTTP get addr).2 ≠ none ↔
      ((∃ e, get addr = Except.error e) ∨
       (∃ r, get addr = Except.ok r ∧ r.statusCode ≠ 200) ∨
       (∃ r, get addr = Except.ok r ∧ r.statusCode = 200 ∧ r.bodyErr ≠ none))) ∧
    (∀ r, get addr = Except.ok r → r.statusCode = 200 → r.bodyErr = none →
      getHTTP get addr = (r.body, none)) := by
  constructor
  · cases hg : get addr with
    | error e =>
      constructor
      · intro _
        exact Or.inl ⟨e, rfl⟩
      · intro _
        simp [getHTTP, hg]
    | ok r =>
      by_cases hsc : r.statusCode = 200
      · by_cases hbe : r.bodyErr = none
        · constructor
          · intro hc
            exfalso
            apply hc
            simp [getHTTP, hg, hsc, hbe]
          · intro hc
            exfalso
            rcases hc with ⟨e, he⟩ | ⟨r2, hr2, hs2⟩ | ⟨r2, hr2, _, hb2⟩
            · cases he
            · simp only [Except.ok.injEq] at hr2
              exact hs2 (hr2 ▸ hsc)
            · simp only [Except.ok.injEq] at hr2
              exact hb2 (hr2 ▸ hbe)
        · constructor
          · intro _
            exact Or.inr (Or.inr ⟨r, rfl, hsc, hbe⟩)
          · intro _
            simp [getHTTP, hg, hsc, hbe]
      · constructor
        · intro _
          exact Or.inr (Or.inl ⟨r, rfl, hsc⟩)
        · intro _
          simp [getHTTP, hg, hsc]
  · intro r hg hsc hbe
    simp [getHTTP, hg, hsc, hbe]

/-- Transport stub returning a clean 200 response with body `[7]`. -/
def getOk7 : String → Except String HttpResponse := fun _ =>
  Except.ok { statusCode := 200, body := [7], bodyErr := none }

theorem getHTTP_error_iff_not_200_witness :
    (getOk7 "u" = Except.ok { statusCode := 200, body := [7], bodyErr := none }) ∧
    getHTTP getOk7 "u" = ([7], none) :=
  ⟨rfl, (getHTTP_error_iff_not_200 getOk7 "u").2 _ rfl rfl rfl⟩

/-- C10.  `NewCrawler` stores any fetcher count unvalidated, and with
`numFetchers = 0` a crawl of any parseable seed can never return: from the
initial loop state no event is possible — the dispatch send can never pair
with a worker, no fetch is in flight, and the queue is non-empty so the
exit condition never holds — hence the only run is the empty one, it is
not final, and the selection step blocks forever. -/
theorem zero_fetchers_crawl_never_returns (cfg : Config) (root : GoUrl)
    (hroot : cfg.lib.parse cfg.addr = some root)
    (h0 : cfg.numFetchers = 0) :
    (∀ n : Int, (NewCrawler n).numFetchers = n) ∧
    (∀ e, crawlStep cfg root (crawlInit cfg) e = none) ∧
    (∀ tr s', crawlRun cfg root (crawlInit cfg) tr = some s' →
      s' = crawlInit cfg ∧ ¬ Final s') := by
  have hstep : ∀ e, crawlStep cfg root (crawlInit cfg) e = none := by
    intro e
    cases e with
    | skip u =>
      by_cases hc : (crawlInit cfg).work.head? = some u ∧
          u ∈ (crawlInit cfg).visited
      · exact absurd hc.2 (by simp [crawlInit])
      · simp only [crawlStep, if_neg hc]
    | dispatch u =>
      by_cases hc : (crawlInit cfg).work.head? = some u ∧
          u ∉ (crawlInit cfg).visited ∧
          ((crawlInit cfg).inflight.length : Int) < cfg.numFetchers
      · exfalso
        have hlt := hc.2.2
        rw [h0] at hlt
        simp [crawlInit] at hlt
      · simp only [crawlStep, if_neg hc]
    | receive u =>
      by_cases hc : u ∈ (crawlInit cfg).inflight ∧
          selectOpen (crawlInit cfg) = true
      · exact absurd hc.1 (by simp [crawlInit])
      · simp only [crawlStep, if_neg hc]
  refine ⟨fun n => rfl, hstep, ?_⟩
  intro tr s' h
  cases tr with
  | nil =>
    have hse := crawlRun_nil_inv h
    subst hse
    refine ⟨rfl, ?_⟩
    intro hf
    have hw := hf.1
    simp [crawlInit] at hw
  | cons e tr =>
    obtain ⟨s₁, hs, _⟩ := crawlRun_cons_inv h
    rw [hstep e] at hs
    cases hs

/-- Zero-fetcher configuration over the `cfgA` site. -/
def cfg0 : Config :=
  { lib := libA, fetch := fetchA, numFetchers := 0, addr := "https://h/" }

theorem zero_fetchers_crawl_never_returns_witness :
    (cfg0.lib.parse cfg0.addr = some rootA) ∧ (cfg0.numFetchers = 0) ∧
    ((NewCrawler 0).numFetchers = 0) ∧
    (crawlStep cfg0 rootA (crawlInit cfg0) (Ev.dispatch "https://h/") = none) ∧
    ¬ Final (crawlInit cfg0) := by
  refine ⟨by decide, rfl, ?_, ?_, by decide⟩
  · exact (zero_fetchers_crawl_never_returns cfg0 rootA (by decide) rfl).1 0
  · exact (zero_fetchers_crawl_never_returns cfg0 rootA (by decide) rfl).2.1
      (Ev.dispatch "https://h/")

/-- C7 counterexample (claim as stated).  The page `https://h/w` of `cfgC`
suffers a per-page fetch failure, yet no result entry for it appears in
the completed output: its URL does not re-parse, so the `break` path drops
the entry instead of retaining it with its error. -/
theorem fetch_error_page_missing_counterexample :
    ((cfgC.fetch "https://h/w").2 = some "errw") ∧
    (crawlRun cfgC rootC (crawlInit cfgC) traceC = some stCfin) ∧
    Final stCfin ∧
    Ev.dispatch "https://h/w" ∈ traceC ∧
    "https://h/w" ∉ stCfin.results.map Result.url ∧
    "https://h/w" ∉ (crawlReturn stCfin).map Result.url := by
  refine ⟨by decide, by decide, by decide, by decide, by decide, ?_⟩
  intro hmem
  exact (by decide : "https://h/w" ∉ stCfin.results.map Result.url)
    ((crawlReturn_map_url_perm stCfin).subset hmem)
